import Mathlib

/-!
Verification of the channel-topology discovery and grouping core of
`adi/ad9084.py` (pyadi-iio).

The embedding models:
* `_map_to_dict` — parsing of channel label strings into the nested
  converter → coarse → fine → channel-id map (Python dicts are modelled as
  insertion-ordered association lists, matching Python 3 dict iteration order);
* `_sortconv` — the index-keyed stable sort with optional I/Q interleaving
  (Python `sorted` is a stable sort; it is modelled here by a stable insertion
  sort, which computes the same output for every total preorder key;
  Python exceptions — `AssertionError`, `ValueError` from `int()`,
  `IndexError` from `tmpQ[i]` — are modelled with `Except`);
* the representative-channel derivation loop of `ad9084.__init__`
  (lines 163–179), with the `chans[0]` `IndexError` modelled in `Except`;
* the raw channel-name gathering loop (lines 144–146);
* `_get_iio_attr_str_single`-style helpers (`channel_name[0]` on a list);
* a small explicit-heap model of the construction sequence
  (`paths = {}` followed by the `_map_to_dict` mutation loop) used to state
  the freshness / no-mutation-of-prior-maps property.
-/

namespace AD9084

/-! ### Python string and int primitives -/

/-- Python `int(s)` digit-run validity: nonempty, digits with single
underscores allowed only between digits. -/
def noDoubleUS : List Char → Bool
  | a :: b :: rest => !(a = '_' && b = '_') && noDoubleUS (b :: rest)
  | _ => true

def validDigits (cs : List Char) : Bool :=
  match cs with
  | [] => false
  | first :: _ =>
    cs.all (fun c => c.isDigit || c = '_') && first.isDigit &&
      (match cs.getLast? with
       | some c => c.isDigit
       | none => false) && noDoubleUS cs

def digitsVal (cs : List Char) : Nat :=
  cs.foldl (fun n c => if c = '_' then n else n * 10 + (c.toNat - 48)) 0

def pyStrip (cs : List Char) : List Char :=
  ((cs.dropWhile Char.isWhitespace).reverse.dropWhile Char.isWhitespace).reverse

/-- Python `int(str)`: optional whitespace, optional sign, digit run with
single underscores between digits; `none` models `ValueError`. -/
def pyParseInt (cs0 : List Char) : Option Int :=
  let cs := pyStrip cs0
  match cs with
  | '-' :: rest => if validDigits rest then some (-(Int.ofNat (digitsVal rest))) else none
  | '+' :: rest => if validDigits rest then some (Int.ofNat (digitsVal rest)) else none
  | _ => if validDigits cs then some (Int.ofNat (digitsVal cs)) else none

/-- `needle` is a prefix of `hay` (Python-style character comparison). -/
def subAt : List Char → List Char → Bool
  | [], _ => true
  | _ :: _, [] => false
  | a :: as, b :: bs => a = b && subAt as bs

/-- Python `needle in hay` substring containment over char lists. -/
def hasSubL (n : List Char) : List Char → Bool
  | [] => subAt n []
  | c :: t => subAt n (c :: t) || hasSubL n t

/-- Python `needle in s` substring containment for strings. -/
def hasSub (needle s : String) : Bool := hasSubL needle.toList s.toList

/-! ### `_sortconv` (src/adi/ad9084.py lines 43–81) -/

/-- Error classes raised by `_sortconv` and the `__init__` derivation loop:
`assertFail` models the failed `assert not (dds and complex)`,
`valueErr` models `ValueError` from `int()` inside a sort key, and
`indexErr` models `IndexError` from an out-of-range list index. -/
inductive SortErr where
  | assertFail : SortErr
  | valueErr : SortErr
  | indexErr : SortErr
deriving DecidableEq, Repr

/-- `ignoreadc(w) = int(w[len("voltage"):w.find("_")])` — Python slice
semantics: `find` returns the first index of `'_'` or `-1` (which as a slice
stop means `len - 1`). -/
def ignoreadc (w : String) : Option Int :=
  let cs := w.toList
  let stop :=
    match cs.findIdx? (fun c => c = '_') with
    | some j => j
    | none => cs.length - 1
  pyParseInt ((cs.take stop).drop 7)

/-- `ignorealt(w) = int(w[len("altvoltage"):])`. -/
def ignorealt (w : String) : Option Int := pyParseInt (w.toList.drop 10)

/-- `ignorevoltage(w) = int(w[len("voltage"):])`. -/
def ignorevoltage (w : String) : Option Int := pyParseInt (w.toList.drop 7)

/-- CPython `sorted(l, key=filt)` computes `filt` on every element first (in
list order, raising on the first failure), then stably sorts by key. -/
def keyed (filt : String → Option Int) : List String → Option (List (Int × String))
  | [] => some []
  | s :: rest =>
    match filt s, keyed filt rest with
    | some k, some ps => some ((k, s) :: ps)
    | _, _ => none

/-- Stable insertion of a keyed element: placed before the first element whose
key is not strictly smaller (so equal keys keep input order). -/
def insertK (a : Int × String) : List (Int × String) → List (Int × String)
  | [] => [a]
  | b :: bs => if b.1 < a.1 then b :: insertK a bs else a :: b :: bs

/-- Stable sort by key. Python `sorted` is stable; every stable sort under a
total preorder computes the same list, so insertion sort is an exact model. -/
def sortPairs : List (Int × String) → List (Int × String)
  | [] => []
  | p :: ps => insertK p (sortPairs ps)

/-- `sorted(l, key=filt)` with the `ValueError` of a failing key. -/
def sortByKey (filt : String → Option Int) (l : List String) : Except SortErr (List String) :=
  match keyed filt l with
  | none => .error .valueErr
  | some ps => .ok ((sortPairs ps).map Prod.snd)

/-- The output loop `for i in range(len(tmpI)): out.append(tmpI[i]);
if not noq: out.append(tmpQ[i])` — `tmpQ[i]` raises `IndexError` when
`tmpQ` is shorter than `tmpI`; surplus `tmpQ` entries are ignored. -/
def interQ : List String → List String → Except SortErr (List String)
  | [], _ => .ok []
  | _ :: _, [] => .error .indexErr
  | a :: as, b :: bs =>
    match interQ as bs with
    | .ok rest => .ok (a :: b :: rest)
    | .error e => .error e

/-- `_sortconv(chans_names, noq=False, dds=False, complex=False)`
(src/adi/ad9084.py lines 43–81). The `assert` fires before either
`sorted` call; `tmpQ` is sorted even when `noq` ends up true. -/
def _sortconv (chans_names : List String) (noq : Bool := false) (dds : Bool := false)
    (complex : Bool := false) : Except SortErr (List String) :=
  let tmpI0 := chans_names.filter (fun k => hasSub "_i" k)
  let tmpQ0 := chans_names.filter (fun k => hasSub "_q" k)
  if dds && complex then
    .error .assertFail
  else
    let filt := if dds then ignorealt else if !complex then ignorevoltage else ignoreadc
    let tmpI1 := if dds then chans_names else if !complex then chans_names else tmpI0
    let noq1 := if dds then true else if !complex then true else noq
    match sortByKey filt tmpI1, sortByKey filt tmpQ0 with
    | .ok sI, .ok sQ => if noq1 then .ok sI else interQ sI sQ
    | .error e, _ => .error e
    | .ok _, .error e => .error e

/-! ### Channel descriptors and `_map_to_dict` (lines 12–40) -/

/-- A receive/transmit channel descriptor as consumed by the core:
identifier (`ch._id`), the optional `label` attribute (`none` models
`"label" not in ch.attrs`), and the scan/direction flags. -/
structure Chan where
  id : String
  label : Option String
  scan_element : Bool
  output : Bool
deriving DecidableEq, Repr

/-- Leaf: fine-stage name → `{"channels": [...]}` channel-id list,
as an insertion-ordered association list (Python 3 dict order). -/
abbrev FMap := List (String × List String)

abbrev CMap := List (String × FMap)

abbrev PathMap := List (String × CMap)

/-- Python `lab.replace(":", "->")` for the one-char pattern `":"`. -/
def replaceColon : List Char → List Char
  | [] => []
  | c :: rest => if c = ':' then '-' :: '>' :: replaceColon rest else c :: replaceColon rest

/-- Python `lab.split("->")`: leftmost non-overlapping split on the
two-character separator. -/
def splitArrow : List Char → List (List Char)
  | [] => [[]]
  | '-' :: '>' :: rest => [] :: splitArrow rest
  | c :: rest =>
    match splitArrow rest with
    | [] => [[c]]
    | h :: t => (c :: h) :: t

/-- `lab.replace(":", "->").split("->")` as a list of segment strings. -/
def labelSegments (lab : String) : List String :=
  (splitArrow (replaceColon lab.toList)).map String.mk

/-- `paths[adc][cddc][fddc]["channels"].append(ch._id)` with
lookup-or-insert at the leaf level; a new key lands at the end
(Python dict insertion order). -/
def updateLeaf : FMap → String → String → FMap
  | [], f, cid => [(f, [cid])]
  | (k, chs) :: rest, f, cid =>
    if k = f then (k, chs ++ [cid]) :: rest else (k, chs) :: updateLeaf rest f cid

def updateC : CMap → String → String → String → CMap
  | [], c, f, cid => [(c, updateLeaf [] f cid)]
  | (k, fm) :: rest, c, f, cid =>
    if k = c then (k, updateLeaf fm f cid) :: rest else (k, fm) :: updateC rest c f cid

def updateA : PathMap → String → String → String → String → PathMap
  | [], a, c, f, cid => [(a, updateC [] c f cid)]
  | (k, cm) :: rest, a, c, f, cid =>
    if k = a then (k, updateC cm c f cid) :: rest else (k, cm) :: updateA rest a c f cid

/-- `_map_to_dict(paths, ch)` (src/adi/ad9084.py lines 12–40). -/
def _map_to_dict (paths : PathMap) (ch : Chan) : PathMap :=
  match ch.label with
  | none => paths
  | some lab =>
    if lab = "buffer_only" then paths
    else
      match labelSegments lab with
      | [fddc, cddc, adc] => updateA paths adc cddc fddc ch.id
      | [_, fddc, cddc, adc] => updateA paths adc cddc fddc ch.id
      | _ => paths

/-- One iteration of the `__init__` loop
`for ch in self._rxadc.channels: if "label" in ch.attrs: paths = _map_to_dict(paths, ch)`. -/
def parseStep (p : PathMap) (ch : Chan) : PathMap :=
  if ch.label.isSome then _map_to_dict p ch else p

/-- The whole parse of the receive channel sequence, from the fresh `paths = {}`. -/
def parsePaths (chans : List Chan) : PathMap :=
  List.foldl parseStep [] chans

def lookupF : FMap → String → Option (List String)
  | [], _ => none
  | (k, v) :: rest, f => if k = f then some v else lookupF rest f

def lookupC : CMap → String → Option FMap
  | [], _ => none
  | (k, v) :: rest, c => if k = c then some v else lookupC rest c

def lookupA : PathMap → String → Option CMap
  | [], _ => none
  | (k, v) :: rest, a => if k = a then some v else lookupA rest a

/-- `paths[a][c][f]["channels"]`, `none` when any level is missing. -/
def lookupLeaf (m : PathMap) (a c f : String) : Option (List String) :=
  (lookupA m a).bind (fun cm => (lookupC cm c).bind (fun fm => lookupF fm f))

/-- `x` occurs in some leaf channel list of the topology map. -/
def memLeaf (m : PathMap) (x : String) : Bool :=
  m.any (fun a => a.2.any (fun c => c.2.any (fun f => decide (x ∈ f.2))))

/-- A label that `_map_to_dict` ignores: absent, the `buffer_only` sentinel,
or a segment count other than 3 or 4. -/
def labelIgnored : Option String → Bool
  | none => true
  | some lab =>
    (lab = "buffer_only" : Bool) ||
      !((labelSegments lab).length = 3 || (labelSegments lab).length = 4)

/-! ### Raw channel gathering and representative derivation (lines 144–179) -/

/-- The raw receive data-channel list: `for ch in self._rxadc.channels:
if ch.scan_element and not ch.output: self._rx_channel_names.append(ch._id)`. -/
def rxChannelNamesRaw (chans : List Chan) : List String :=
  (chans.filter (fun ch => ch.scan_element && !ch.output)).map Chan.id

/-- The four representative lists built by the `__init__` loop over the path map. -/
structure RepLists where
  rxCoarse : List String
  rxFine : List String
  txCoarse : List String
  txFine : List String
deriving DecidableEq, Repr

/-- `chans = []; for fdc in paths[converter][cdc]: chans += ...["channels"]`. -/
def flattenGroup (fm : FMap) : List String :=
  fm.foldl (fun acc p => acc ++ p.2) []

/-- `chans = [n for n in chans if "_q" not in n and "voltage" in n]`. -/
def filterReps (l : List String) : List String :=
  l.filter (fun n => !(hasSub "_q" n) && hasSub "voltage" n)

/-- Append one `(converter, cdc)` group: `chans[0]` raises `IndexError`
on an empty filtered list. -/
def addGroup (acc : RepLists) (isRx : Bool) (chans : List String) :
    Except SortErr RepLists :=
  match chans with
  | [] => .error .indexErr
  | c0 :: _ =>
    .ok (if isRx then
      { acc with rxCoarse := acc.rxCoarse ++ [c0], rxFine := acc.rxFine ++ chans }
    else
      { acc with txCoarse := acc.txCoarse ++ [c0], txFine := acc.txFine ++ chans })

/-- `for cdc in paths[converter]: ...` for one converter. -/
def deriveGroups (acc : RepLists) (conv : String) : CMap → Except SortErr RepLists
  | [] => .ok acc
  | (_, fm) :: rest =>
    match addGroup acc (hasSub "ADC" conv) (filterReps (flattenGroup fm)) with
    | .ok acc2 => deriveGroups acc2 conv rest
    | .error e => .error e

/-- `for converter in paths: ...`. -/
def deriveAll (acc : RepLists) : PathMap → Except SortErr RepLists
  | [] => .ok acc
  | (conv, cm) :: rest =>
    match deriveGroups acc conv cm with
    | .ok acc2 => deriveAll acc2 rest
    | .error e => .error e

/-- The representative derivation of `ad9084.__init__` (lines 163–179):
starts from the four freshly reset empty lists. -/
def deriveReps (m : PathMap) : Except SortErr RepLists :=
  deriveAll ⟨[], [], [], []⟩ m

/-! ### Single-element accessor helpers (lines 186–204) -/

/-- `if isinstance(channel_name, list): channel_name = channel_name[0]` —
on an empty list, `[0]` raises `IndexError` before any attribute access. -/
def selectSingleName : List String → Except SortErr String
  | [] => .error .indexErr
  | c :: _ => .ok c

/-- `_get_iio_attr_str_single` on a list argument: picks element 0 and only
then performs the underlying attribute read (modelled by `read`). -/
def _get_iio_attr_str_single (read : String → String) (channel_name : List String) :
    Except SortErr String :=
  match selectSingleName channel_name with
  | .ok c => .ok (read c)
  | .error e => .error e

/-! ### Heap model of the construction sequence (lines 136–141) -/

/-- A heap of Python dict objects: reference `r` denotes `heap[r]`. -/
structure Store where
  heap : List PathMap
deriving Repr

def readRef (st : Store) (r : Nat) : Option PathMap := st.heap[r]?

def writeRef (st : Store) (r : Nat) (m : PathMap) : Store := ⟨st.heap.set r m⟩

/-- `paths = {}` allocates a fresh dict object. -/
def allocRef (st : Store) (m : PathMap) : Store × Nat :=
  (⟨st.heap ++ [m]⟩, st.heap.length)

/-- `_map_to_dict(paths, ch)` at the object level: mutates the dict the
reference points at, in place, and returns the same reference. -/
def mapToDictRef (st : Store) (r : Nat) (ch : Chan) : Store × Nat :=
  match readRef st r with
  | none => (st, r)
  | some m => (writeRef st r (_map_to_dict m ch), r)

/-- The loop `for ch in self._rxadc.channels: if "label" in ch.attrs:
paths = _map_to_dict(paths, ch)` at the object level: `paths` is rebound to
the reference `_map_to_dict` returns (always the same object). -/
def buildLoop (acc : Store × Nat) (chans : List Chan) : Store × Nat :=
  chans.foldl
    (fun (a : Store × Nat) ch =>
      if ch.label.isSome then mapToDictRef a.1 a.2 ch else a)
    acc

/-- The construction sequence of `__init__` lines 137–141:
`paths = {}` then the guarded `_map_to_dict` loop, returning the final
store and the reference bound to `paths`. -/
def buildPathMapRef (st : Store) (chans : List Chan) : Store × Nat :=
  buildLoop (allocRef st []) chans

/-! ### Derived membership predicates -/

/-- `x` occurs in the channel list of some fine stage of `fm`. -/
def InF (x : String) (fm : FMap) : Prop := ∃ f ∈ fm, x ∈ f.2

/-- `x` occurs in some leaf under some coarse stage of `cm`. -/
def InC (x : String) (cm : CMap) : Prop := ∃ c ∈ cm, InF x c.2

/-- `x` occurs in some leaf channel list of the topology map (Prop form). -/
def InMap (x : String) (m : PathMap) : Prop := ∃ a ∈ m, InC x a.2

/-! ### Derived forms of `_sortconv` -/

/-- The interleaving `I[0], Q[0], I[1], Q[1], …` produced by the output loop
when it succeeds; surplus entries of the second list are ignored. -/
def weave : List String → List String → List String
  | a :: as, b :: bs => a :: b :: weave as bs
  | as, _ => as

/-- Every stored pair carries the key `filt` computes for its string. -/
def Keyed (filt : String → Option Int) (ps : List (Int × String)) : Prop :=
  ∀ p ∈ ps, filt p.2 = some p.1

/-- `_sortconv` in the two `noq = True` modes (`dds`, and real/non-complex):
both sorts run, only the first result is returned. -/
def simpleSort (filt : String → Option Int) (l : List String) :
    Except SortErr (List String) :=
  match sortByKey filt l, sortByKey filt (l.filter (fun k => hasSub "_q" k)) with
  | .ok sI, .ok _ => .ok sI
  | .error e, _ => .error e
  | .ok _, .error e => .error e

/-- `_sortconv` in complex mode: sort the `_i` and `_q` partitions and
interleave. -/
def complexSort (noq : Bool) (l : List String) : Except SortErr (List String) :=
  match sortByKey ignoreadc (l.filter (fun k => hasSub "_i" k)),
        sortByKey ignoreadc (l.filter (fun k => hasSub "_q" k)) with
  | .ok sI, .ok sQ => if noq then .ok sI else interQ sI sQ
  | .error e, _ => .error e
  | .ok _, .error e => .error e

instance {ε α : Type} [DecidableEq ε] [DecidableEq α] : DecidableEq (Except ε α) :=
  fun x y =>
    match x, y with
    | .ok a, .ok b =>
      if h : a = b then .isTrue (by rw [h]) else
        .isFalse (fun hc => h (Except.ok.inj hc))
    | .error a, .error b =>
      if h : a = b then .isTrue (by rw [h]) else
        .isFalse (fun hc => h (Except.error.inj hc))
    | .ok _, .error _ => .isFalse (fun hc => Except.noConfusion hc)
    | .error _, .ok _ => .isFalse (fun hc => Except.noConfusion hc)

/-! ### Supporting lemmas: topology map membership and lookup -/

theorem memLeaf_iff (m : PathMap) (x : String) : memLeaf m x = true ↔ InMap x m := by
  simp [memLeaf, InMap, InC, InF, List.any_eq_true]

theorem inF_updateLeaf {x f cid : String} :
    ∀ {fm : FMap}, InF x (updateLeaf fm f cid) → InF x fm ∨ x = cid := by
  intro fm
  induction fm with
  | nil =>
    intro h
    obtain ⟨p, hp, hx⟩ := h
    rw [updateLeaf] at hp
    rcases List.mem_singleton.mp hp with rfl
    exact Or.inr (List.mem_singleton.mp hx)
  | cons q rest ih =>
    obtain ⟨k, chs⟩ := q
    intro h
    by_cases hk : k = f
    · subst hk
      simp only [updateLeaf, if_pos rfl] at h
      obtain ⟨p, hp, hx⟩ := h
      rcases List.mem_cons.mp hp with rfl | hpr
      · rcases List.mem_append.mp hx with hxc | hxc
        · exact Or.inl ⟨(k, chs), List.mem_cons_self _ _, hxc⟩
        · exact Or.inr (List.mem_singleton.mp hxc)
      · exact Or.inl ⟨p, List.mem_cons_of_mem _ hpr, hx⟩
    · simp only [updateLeaf, if_neg hk] at h
      obtain ⟨p, hp, hx⟩ := h
      rcases List.mem_cons.mp hp with rfl | hpr
      · exact Or.inl ⟨(k, chs), List.mem_cons_self _ _, hx⟩
      · rcases ih ⟨p, hpr, hx⟩ with hl | hr
        · obtain ⟨p', hp', hx'⟩ := hl
          exact Or.inl ⟨p', List.mem_cons_of_mem _ hp', hx'⟩
        · exact Or.inr hr

theorem inC_updateC {x c f cid : String} :
    ∀ {cm : CMap}, InC x (updateC cm c f cid) → InC x cm ∨ x = cid := by
  intro cm
  induction cm with
  | nil =>
    intro h
    obtain ⟨p, hp, hx⟩ := h
    rw [updateC] at hp
    rcases List.mem_singleton.mp hp with rfl
    rcases inF_updateLeaf hx with hl | hr
    · obtain ⟨f', hf', _⟩ := hl
      exact absurd hf' (List.not_mem_nil f')
    · exact Or.inr hr
  | cons q rest ih =>
    obtain ⟨k, fm⟩ := q
    intro h
    by_cases hk : k = c
    · subst hk
      simp only [updateC, if_pos rfl] at h
      obtain ⟨p, hp, hx⟩ := h
      rcases List.mem_cons.mp hp with rfl | hpr
      · rcases inF_updateLeaf hx with hl | hr
        · exact Or.inl ⟨(k, fm), List.mem_cons_self _ _, hl⟩
        · exact Or.inr hr
      · exact Or.inl ⟨p, List.mem_cons_of_mem _ hpr, hx⟩
    · simp only [updateC, if_neg hk] at h
      obtain ⟨p, hp, hx⟩ := h
      rcases List.mem_cons.mp hp with rfl | hpr
      · exact Or.inl ⟨(k, fm), List.mem_cons_self _ _, hx⟩
      · rcases ih ⟨p, hpr, hx⟩ with hl | hr
        · obtain ⟨p', hp', hx'⟩ := hl
          exact Or.inl ⟨p', List.mem_cons_of_mem _ hp', hx'⟩
        · exact Or.inr hr

theorem inMap_updateA {x a c f cid : String} :
    ∀ {m : PathMap}, InMap x (updateA m a c f cid) → InMap x m ∨ x = cid := by
  intro m
  induction m with
  | nil =>
    intro h
    obtain ⟨p, hp, hx⟩ := h
    rw [updateA] at hp
    rcases List.mem_singleton.mp hp with rfl
    rcases inC_updateC hx with hl | hr
    · obtain ⟨c', hc', _⟩ := hl
      exact absurd hc' (List.not_mem_nil c')
    · exact Or.inr hr
  | cons q rest ih =>
    obtain ⟨k, cm⟩ := q
    intro h
    by_cases hk : k = a
    · subst hk
      simp only [updateA, if_pos rfl] at h
      obtain ⟨p, hp, hx⟩ := h
      rcases List.mem_cons.mp hp with rfl | hpr
      · rcases inC_updateC hx with hl | hr
        · exact Or.inl ⟨(k, cm), List.mem_cons_self _ _, hl⟩
        · exact Or.inr hr
      · exact Or.inl ⟨p, List.mem_cons_of_mem _ hpr, hx⟩
    · simp only [updateA, if_neg hk] at h
      obtain ⟨p, hp, hx⟩ := h
      rcases List.mem_cons.mp hp with rfl | hpr
      · exact Or.inl ⟨(k, cm), List.mem_cons_self _ _, hx⟩
      · rcases ih ⟨p, hpr, hx⟩ with hl | hr
        · obtain ⟨p', hp', hx'⟩ := hl
          exact Or.inl ⟨p', List.mem_cons_of_mem _ hp', hx'⟩
        · exact Or.inr hr

theorem inMap_map_to_dict {p : PathMap} {ch : Chan} {x : String}
    (h : InMap x (_map_to_dict p ch)) :
    InMap x p ∨ (x = ch.id ∧ labelIgnored ch.label = false) := by
  cases hlab : ch.label with
  | none => simp only [_map_to_dict, hlab] at h; exact Or.inl h
  | some lab =>
    by_cases hb : lab = "buffer_only"
    · simp only [_map_to_dict, hlab, if_pos hb] at h
      exact Or.inl h
    · rcases hseg : labelSegments lab with _ | ⟨s1, _ | ⟨s2, _ | ⟨s3, _ | ⟨s4, _ | rest⟩⟩⟩⟩
      · simp only [_map_to_dict, hlab, if_neg hb, hseg] at h; exact Or.inl h
      · simp only [_map_to_dict, hlab, if_neg hb, hseg] at h; exact Or.inl h
      · simp only [_map_to_dict, hlab, if_neg hb, hseg] at h; exact Or.inl h
      · simp only [_map_to_dict, hlab, if_neg hb, hseg] at h
        rcases inMap_updateA h with hl | hr
        · exact Or.inl hl
        · refine Or.inr ⟨hr, ?_⟩
          simp [labelIgnored, hlab, hb, hseg]
      · simp only [_map_to_dict, hlab, if_neg hb, hseg] at h
        rcases inMap_updateA h with hl | hr
        · exact Or.inl hl
        · refine Or.inr ⟨hr, ?_⟩
          simp [labelIgnored, hlab, hb, hseg]
      · simp only [_map_to_dict, hlab, if_neg hb, hseg] at h; exact Or.inl h

theorem inMap_parse_fold :
    ∀ (chans : List Chan) (p : PathMap) (x : String),
      InMap x (List.foldl parseStep p chans) →
      InMap x p ∨ ∃ ch ∈ chans, x = ch.id ∧ labelIgnored ch.label = false
  | [], _, _, h => Or.inl h
  | ch :: rest, p, x, h => by
    rcases inMap_parse_fold rest (parseStep p ch) x h with h1 | h2
    · rw [parseStep] at h1
      by_cases hs : ch.label.isSome
      · rw [if_pos hs] at h1
        rcases inMap_map_to_dict h1 with ha | ⟨hb1, hb2⟩
        · exact Or.inl ha
        · exact Or.inr ⟨ch, List.mem_cons_self _ _, hb1, hb2⟩
      · rw [if_neg hs] at h1
        exact Or.inl h1
    · obtain ⟨ch', hm, hr⟩ := h2
      exact Or.inr ⟨ch', List.mem_cons_of_mem _ hm, hr⟩

theorem lookupF_updateLeaf :
    ∀ (fm : FMap) (f cid : String),
      lookupF (updateLeaf fm f cid) f = some (((lookupF fm f).getD []) ++ [cid])
  | [], f, cid => by simp [updateLeaf, lookupF]
  | (k, chs) :: rest, f, cid => by
    by_cases hk : k = f
    · subst hk
      simp [updateLeaf, lookupF]
    · simp [updateLeaf, lookupF, hk, lookupF_updateLeaf rest f cid]

theorem lookupC_updateC :
    ∀ (cm : CMap) (c f cid : String),
      lookupC (updateC cm c f cid) c = some (updateLeaf ((lookupC cm c).getD []) f cid)
  | [], c, f, cid => by simp [updateC, lookupC]
  | (k, fm) :: rest, c, f, cid => by
    by_cases hk : k = c
    · subst hk
      simp [updateC, lookupC]
    · simp [updateC, lookupC, hk, lookupC_updateC rest c f cid]

theorem lookupA_updateA :
    ∀ (m : PathMap) (a c f cid : String),
      lookupA (updateA m a c f cid) a = some (updateC ((lookupA m a).getD []) c f cid)
  | [], a, c, f, cid => by simp [updateA, lookupA]
  | (k, cm) :: rest, a, c, f, cid => by
    by_cases hk : k = a
    · subst hk
      simp [updateA, lookupA]
    · simp [updateA, lookupA, hk, lookupA_updateA rest a c f cid]

theorem lookupLeaf_updateA (m : PathMap) (a c f cid : String) :
    lookupLeaf (updateA m a c f cid) a c f =
      some (((lookupF ((lookupC ((lookupA m a).getD []) c).getD []) f).getD []) ++ [cid]) := by
  rw [lookupLeaf, lookupA_updateA]
  rw [Option.some_bind, lookupC_updateC, Option.some_bind, lookupF_updateLeaf]

/-! ### Supporting lemmas: representative derivation errors -/

theorem addGroup_ok_ne_nil {acc r : RepLists} {isRx : Bool} {chans : List String}
    (h : addGroup acc isRx chans = .ok r) : chans ≠ [] := by
  cases chans with
  | nil => exact absurd h (by rw [addGroup]; exact fun hc => Except.noConfusion hc)
  | cons c cs => exact fun hc => List.noConfusion hc

theorem addGroup_error_eq {acc : RepLists} {isRx : Bool} {chans : List String} {e : SortErr}
    (h : addGroup acc isRx chans = .error e) : e = .indexErr := by
  cases chans with
  | nil => rw [addGroup] at h; exact (Except.error.inj h).symm
  | cons c cs => rw [addGroup] at h; exact absurd h (fun hc => Except.noConfusion hc)

theorem deriveGroups_ok_no_empty {conv : String} :
    ∀ {cm : CMap} {acc r : RepLists}, deriveGroups acc conv cm = .ok r →
      ∀ p ∈ cm, filterReps (flattenGroup p.2) ≠ []
  | [], _, _, _, p, hp => absurd hp (List.not_mem_nil p)
  | (c, fm) :: rest, acc, r, h, p, hp => by
    rw [deriveGroups] at h
    cases haddr : addGroup acc (hasSub "ADC" conv) (filterReps (flattenGroup fm)) with
    | ok acc2 =>
      rw [haddr] at h
      rcases List.mem_cons.mp hp with rfl | hpr
      · exact addGroup_ok_ne_nil haddr
      · exact deriveGroups_ok_no_empty h p hpr
    | error e =>
      rw [haddr] at h
      exact absurd h (fun hc => Except.noConfusion hc)

theorem deriveAll_ok_no_empty :
    ∀ {m : PathMap} {acc r : RepLists}, deriveAll acc m = .ok r →
      ∀ p ∈ m, ∀ q ∈ p.2, filterReps (flattenGroup q.2) ≠ []
  | [], _, _, _, p, hp => absurd hp (List.not_mem_nil p)
  | (conv, cm) :: rest, acc, r, h, p, hp => by
    rw [deriveAll] at h
    cases hg : deriveGroups acc conv cm with
    | ok acc2 =>
      rw [hg] at h
      rcases List.mem_cons.mp hp with rfl | hpr
      · exact deriveGroups_ok_no_empty hg
      · exact deriveAll_ok_no_empty h p hpr
    | error e =>
      rw [hg] at h
      exact absurd h (fun hc => Except.noConfusion hc)

theorem deriveGroups_error_eq {conv : String} :
    ∀ {cm : CMap} {acc : RepLists} {e : SortErr}, deriveGroups acc conv cm = .error e →
      e = .indexErr
  | [], _, _, h => absurd h (by rw [deriveGroups]; exact fun hc => Except.noConfusion hc)
  | (c, fm) :: rest, acc, e, h => by
    rw [deriveGroups] at h
    cases haddr : addGroup acc (hasSub "ADC" conv) (filterReps (flattenGroup fm)) with
    | ok acc2 =>
      rw [haddr] at h
      exact deriveGroups_error_eq h
    | error e' =>
      rw [haddr] at h
      rw [← Except.error.inj h]
      exact addGroup_error_eq haddr

theorem deriveAll_error_eq :
    ∀ {m : PathMap} {acc : RepLists} {e : SortErr}, deriveAll acc m = .error e →
      e = .indexErr
  | [], _, _, h => absurd h (by rw [deriveAll]; exact fun hc => Except.noConfusion hc)
  | (conv, cm) :: rest, acc, e, h => by
    rw [deriveAll] at h
    cases hg : deriveGroups acc conv cm with
    | ok acc2 =>
      rw [hg] at h
      exact deriveAll_error_eq h
    | error e' =>
      rw [hg] at h
      rw [← Except.error.inj h]
      exact deriveGroups_error_eq hg

/-! ### Supporting lemmas: heap model -/

theorem readRef_writeRef_self {st : Store} {r : Nat} {m v : PathMap}
    (hr : readRef st r = some m) : readRef (writeRef st r v) r = some v := by
  obtain ⟨hlt, -⟩ := List.getElem?_eq_some.mp hr
  simp [readRef, writeRef, List.getElem?_set, hlt]

theorem readRef_writeRef_ne {st : Store} {r r' : Nat} {v : PathMap} (hne : r' ≠ r) :
    readRef (writeRef st r v) r' = readRef st r' := by
  have hne' : r ≠ r' := Ne.symm hne
  simp [readRef, writeRef, List.getElem?_set, hne']

theorem buildLoop_spec :
    ∀ (chans : List Chan) (st : Store) (r : Nat) (m : PathMap),
      readRef st r = some m →
      (buildLoop (st, r) chans).2 = r ∧
      readRef (buildLoop (st, r) chans).1 r = some (List.foldl parseStep m chans) ∧
      (∀ r', r' ≠ r → readRef (buildLoop (st, r) chans).1 r' = readRef st r')
  | [], st, r, m, hr => ⟨rfl, by simpa [buildLoop] using hr, fun _ _ => rfl⟩
  | ch :: rest, st, r, m, hr => by
    by_cases hs : ch.label.isSome
    · have hstep : buildLoop (st, r) (ch :: rest) =
          buildLoop (writeRef st r (_map_to_dict m ch), r) rest := by
        simp only [buildLoop, List.foldl_cons, if_pos hs, mapToDictRef, hr]
      have hr2 : readRef (writeRef st r (_map_to_dict m ch)) r = some (_map_to_dict m ch) :=
        readRef_writeRef_self hr
      obtain ⟨h1, h2, h3⟩ := buildLoop_spec rest _ r (_map_to_dict m ch) hr2
      refine ⟨by rw [hstep]; exact h1, ?_, ?_⟩
      · rw [hstep]
        rw [List.foldl_cons]
        have hps : parseStep m ch = _map_to_dict m ch := by rw [parseStep, if_pos hs]
        rw [hps]
        exact h2
      · intro r' hne
        rw [hstep, h3 r' hne, readRef_writeRef_ne hne]
    · have hstep : buildLoop (st, r) (ch :: rest) = buildLoop (st, r) rest := by
        simp only [buildLoop, List.foldl_cons, if_neg hs]
      obtain ⟨h1, h2, h3⟩ := buildLoop_spec rest st r m hr
      refine ⟨by rw [hstep]; exact h1, ?_, ?_⟩
      · rw [hstep, List.foldl_cons]
        have hps : parseStep m ch = m := by rw [parseStep, if_neg hs]
        rw [hps]
        exact h2
      · intro r' hne
        rw [hstep, h3 r' hne]

/-! ### Supporting lemmas: the stable key sort -/

theorem sortconv_real_eq (l : List String) (noq : Bool) :
    _sortconv l noq false false = simpleSort ignorevoltage l := rfl

theorem sortconv_dds_eq (l : List String) (noq : Bool) :
    _sortconv l noq true false = simpleSort ignorealt l := rfl

theorem sortconv_complex_eq (l : List String) (noq : Bool) :
    _sortconv l noq false true = complexSort noq l := rfl

theorem keyed_some_snd {filt : String → Option Int} :
    ∀ {l : List String} {ps : List (Int × String)},
      keyed filt l = some ps → ps.map Prod.snd = l
  | [], ps, h => by
    rw [keyed] at h
    injection h with h2
    rw [← h2]
    rfl
  | s :: rest, ps, h => by
    rw [keyed] at h
    cases hf : filt s with
    | none => rw [hf] at h; exact absurd h (fun hc => Option.noConfusion hc)
    | some k =>
      cases hk : keyed filt rest with
      | none => rw [hf, hk] at h; exact absurd h (fun hc => Option.noConfusion hc)
      | some ps' =>
        rw [hf, hk] at h
        injection h with h2
        rw [← h2, List.map_cons, keyed_some_snd hk]

theorem keyed_some_keyedP {filt : String → Option Int} :
    ∀ {l : List String} {ps : List (Int × String)},
      keyed filt l = some ps → Keyed filt ps
  | [], ps, h => by
    rw [keyed] at h
    injection h with h2
    rw [← h2]
    exact fun p hp => absurd hp (List.not_mem_nil p)
  | s :: rest, ps, h => by
    rw [keyed] at h
    cases hf : filt s with
    | none => rw [hf] at h; exact absurd h (fun hc => Option.noConfusion hc)
    | some k =>
      cases hk : keyed filt rest with
      | none => rw [hf, hk] at h; exact absurd h (fun hc => Option.noConfusion hc)
      | some ps' =>
        rw [hf, hk] at h
        injection h with h2
        rw [← h2]
        intro p hp
        rcases List.mem_cons.mp hp with rfl | hpr
        · exact hf
        · exact keyed_some_keyedP hk p hpr

theorem keyedP_perm {filt : String → Option Int} {ps qs : List (Int × String)}
    (hperm : ps.Perm qs) (h : Keyed filt ps) : Keyed filt qs :=
  fun p hp => h p (hperm.symm.subset hp)

theorem keyed_of_keyedP {filt : String → Option Int} :
    ∀ {ps : List (Int × String)}, Keyed filt ps →
      keyed filt (ps.map Prod.snd) = some ps
  | [], _ => rfl
  | (k, s) :: ps, h => by
    have hs : filt s = some k := h (k, s) (List.mem_cons_self _ _)
    have ht : Keyed filt ps := fun p hp => h p (List.mem_cons_of_mem _ hp)
    rw [List.map_cons, keyed, hs, keyed_of_keyedP ht]

theorem keyed_isSome_of_all {filt : String → Option Int} :
    ∀ {l : List String}, (∀ s ∈ l, (filt s).isSome) →
      ∃ ps, keyed filt l = some ps
  | [], _ => ⟨[], rfl⟩
  | s :: rest, h => by
    obtain ⟨k, hk⟩ := Option.isSome_iff_exists.mp (h s (List.mem_cons_self _ _))
    obtain ⟨ps, hps⟩ := keyed_isSome_of_all (fun x hx => h x (List.mem_cons_of_mem _ hx))
    exact ⟨(k, s) :: ps, by rw [keyed, hk, hps]⟩

theorem insertK_perm (a : Int × String) :
    ∀ (l : List (Int × String)), (insertK a l).Perm (a :: l)
  | [] => List.Perm.refl _
  | b :: bs => by
    rw [insertK]
    by_cases hb : b.1 < a.1
    · rw [if_pos hb]
      exact ((insertK_perm a bs).cons b).trans (List.Perm.swap a b bs)
    · rw [if_neg hb]

theorem sortPairs_perm : ∀ (l : List (Int × String)), (sortPairs l).Perm l
  | [] => List.Perm.refl _
  | p :: ps => (insertK_perm p (sortPairs ps)).trans ((sortPairs_perm ps).cons p)

theorem insertK_pairwise {a : Int × String} :
    ∀ {l : List (Int × String)}, l.Pairwise (fun x y => x.1 ≤ y.1) →
      (insertK a l).Pairwise (fun x y => x.1 ≤ y.1)
  | [], _ => List.pairwise_singleton _ _
  | b :: bs, h => by
    obtain ⟨hb1, hb2⟩ := List.pairwise_cons.mp h
    rw [insertK]
    by_cases hb : b.1 < a.1
    · rw [if_pos hb]
      refine List.pairwise_cons.mpr ⟨?_, insertK_pairwise hb2⟩
      intro y hy
      rcases List.mem_cons.mp ((insertK_perm a bs).mem_iff.mp hy) with rfl | hybs
      · exact le_of_lt hb
      · exact hb1 y hybs
    · rw [if_neg hb]
      refine List.pairwise_cons.mpr ⟨?_, h⟩
      intro y hy
      rcases List.mem_cons.mp hy with rfl | hybs
      · exact not_lt.mp hb
      · exact (not_lt.mp hb).trans (hb1 y hybs)

theorem sortPairs_pairwise :
    ∀ (l : List (Int × String)), (sortPairs l).Pairwise (fun x y => x.1 ≤ y.1)
  | [] => List.Pairwise.nil
  | p :: ps => insertK_pairwise (sortPairs_pairwise ps)

theorem insertK_of_le {a : Int × String} :
    ∀ {l : List (Int × String)}, (∀ b ∈ l, a.1 ≤ b.1) → insertK a l = a :: l
  | [], _ => rfl
  | b :: bs, h => by
    rw [insertK, if_neg (not_lt.mpr (h b (List.mem_cons_self _ _)))]

theorem sortPairs_of_sorted :
    ∀ {l : List (Int × String)}, l.Pairwise (fun x y => x.1 ≤ y.1) → sortPairs l = l
  | [], _ => rfl
  | p :: ps, h => by
    obtain ⟨h1, h2⟩ := List.pairwise_cons.mp h
    rw [sortPairs, sortPairs_of_sorted h2, insertK_of_le h1]

theorem sortByKey_eq_ok {filt : String → Option Int} {l r : List String}
    (h : sortByKey filt l = .ok r) :
    ∃ ps, keyed filt l = some ps ∧ r = (sortPairs ps).map Prod.snd := by
  rw [sortByKey] at h
  cases hk : keyed filt l with
  | none => rw [hk] at h; exact absurd h (fun hc => Except.noConfusion hc)
  | some ps => rw [hk] at h; exact ⟨ps, rfl, (Except.ok.inj h).symm⟩

theorem sortByKey_idem {filt : String → Option Int} {qs : List (Int × String)}
    (hc : Keyed filt qs) (hs : qs.Pairwise (fun x y => x.1 ≤ y.1)) :
    sortByKey filt (qs.map Prod.snd) = .ok (qs.map Prod.snd) := by
  rw [sortByKey, keyed_of_keyedP hc]
  show Except.ok ((sortPairs qs).map Prod.snd) = Except.ok (qs.map Prod.snd)
  rw [sortPairs_of_sorted hs]

theorem sortByKey_ok_self {filt : String → Option Int} {l r : List String}
    (h : sortByKey filt l = .ok r) : sortByKey filt r = .ok r := by
  obtain ⟨ps, hk, rfl⟩ := sortByKey_eq_ok h
  exact sortByKey_idem
    (keyedP_perm (sortPairs_perm ps).symm (keyed_some_keyedP hk))
    (sortPairs_pairwise ps)

theorem sortByKey_ok_isSome {filt : String → Option Int} {l r : List String}
    (h : sortByKey filt l = .ok r) : ∀ x ∈ r, (filt x).isSome := by
  obtain ⟨ps, hk, rfl⟩ := sortByKey_eq_ok h
  intro x hx
  obtain ⟨p, hp, rfl⟩ := List.mem_map.mp hx
  rw [keyed_some_keyedP hk p ((sortPairs_perm ps).subset hp)]
  rfl

theorem sortByKey_perm {filt : String → Option Int} {l r : List String}
    (h : sortByKey filt l = .ok r) : r.Perm l := by
  obtain ⟨ps, hk, rfl⟩ := sortByKey_eq_ok h
  have h2 : ((sortPairs ps).map Prod.snd).Perm (ps.map Prod.snd) :=
    (sortPairs_perm ps).map _
  rw [keyed_some_snd hk] at h2
  exact h2

theorem sortByKey_isSome_ok {filt : String → Option Int} {l : List String}
    (h : ∀ s ∈ l, (filt s).isSome) : ∃ r, sortByKey filt l = .ok r := by
  obtain ⟨ps, hps⟩ := keyed_isSome_of_all h
  exact ⟨_, by rw [sortByKey, hps]⟩

theorem interQ_short :
    ∀ {as bs : List String}, bs.length < as.length → interQ as bs = .error .indexErr
  | [], _, h => absurd h (by simp)
  | _ :: _, [], _ => rfl
  | a :: as, b :: bs, h => by
    rw [interQ, interQ_short (Nat.lt_of_succ_lt_succ h)]

theorem interQ_ok_weave :
    ∀ {as bs : List String}, as.length ≤ bs.length → interQ as bs = .ok (weave as bs)
  | [], bs, _ => by cases bs <;> rfl
  | a :: as, [], h => absurd h (by simp)
  | a :: as, b :: bs, h => by
    show interQ (a :: as) (b :: bs) = Except.ok (a :: b :: weave as bs)
    rw [interQ, interQ_ok_weave (Nat.le_of_succ_le_succ h)]

theorem interQ_ok_elim {as bs o : List String} (h : interQ as bs = .ok o) :
    as.length ≤ bs.length ∧ o = weave as bs := by
  by_cases hl : as.length ≤ bs.length
  · rw [interQ_ok_weave hl] at h
    exact ⟨hl, (Except.ok.inj h).symm⟩
  · rw [interQ_short (not_le.mp hl)] at h
    exact absurd h (fun hc => Except.noConfusion hc)

theorem weave_length :
    ∀ {as bs : List String}, as.length ≤ bs.length →
      (weave as bs).length = 2 * as.length
  | [], bs, _ => by cases bs <;> rfl
  | a :: as, [], h => absurd h (by simp)
  | a :: as, b :: bs, h => by
    show (a :: b :: weave as bs).length = 2 * (a :: as).length
    rw [List.length_cons, List.length_cons, weave_length (Nat.le_of_succ_le_succ h),
      List.length_cons]
    omega

theorem weave_mem :
    ∀ {as bs : List String} {x : String}, x ∈ weave as bs → x ∈ as ∨ x ∈ bs
  | [], bs, x, h => by cases bs <;> exact absurd h (List.not_mem_nil x)
  | _ :: _, [], _, h => Or.inl h
  | a :: as, b :: bs, x, h => by
    rcases List.mem_cons.mp h with rfl | h2
    · exact Or.inl (List.mem_cons_self _ _)
    · rcases List.mem_cons.mp h2 with rfl | h3
      · exact Or.inr (List.mem_cons_self _ _)
      · rcases weave_mem h3 with h4 | h4
        · exact Or.inl (List.mem_cons_of_mem _ h4)
        · exact Or.inr (List.mem_cons_of_mem _ h4)

theorem weave_filter_left {p : String → Bool} :
    ∀ {as bs : List String}, as.length ≤ bs.length →
      (∀ a ∈ as, p a = true) → (∀ b ∈ bs, p b = false) →
      (weave as bs).filter p = as
  | [], bs, _, _, _ => by cases bs <;> rfl
  | a :: as, [], h, _, _ => absurd h (by simp)
  | a :: as, b :: bs, h, hA, hB => by
    show (a :: b :: weave as bs).filter p = a :: as
    rw [List.filter_cons_of_pos (hA a (List.mem_cons_self _ _)),
      List.filter_cons_of_neg (by rw [hB b (List.mem_cons_self _ _)]; exact fun hc => Bool.noConfusion hc),
      weave_filter_left (Nat.le_of_succ_le_succ h)
        (fun x hx => hA x (List.mem_cons_of_mem _ hx))
        (fun x hx => hB x (List.mem_cons_of_mem _ hx))]

theorem weave_filter_right {p : String → Bool} :
    ∀ {as bs : List String}, as.length ≤ bs.length →
      (∀ a ∈ as, p a = false) → (∀ b ∈ bs, p b = true) →
      (weave as bs).filter p = bs.take as.length
  | [], bs, _, _, _ => by cases bs <;> rfl
  | a :: as, [], h, _, _ => absurd h (by simp)
  | a :: as, b :: bs, h, hA, hB => by
    show (a :: b :: weave as bs).filter p = b :: bs.take as.length
    rw [List.filter_cons_of_neg (by rw [hA a (List.mem_cons_self _ _)]; exact fun hc => Bool.noConfusion hc),
      List.filter_cons_of_pos (hB b (List.mem_cons_self _ _)),
      weave_filter_right (Nat.le_of_succ_le_succ h)
        (fun x hx => hA x (List.mem_cons_of_mem _ hx))
        (fun x hx => hB x (List.mem_cons_of_mem _ hx))]

theorem weave_take : ∀ (as bs : List String), weave as (bs.take as.length) = weave as bs
  | [], bs => by cases bs <;> rfl
  | _ :: _, [] => rfl
  | a :: as, b :: bs => by
    show a :: b :: weave as (bs.take as.length) = a :: b :: weave as bs
    rw [weave_take as bs]

theorem simpleSort_idem {filt : String → Option Int} {l out : List String}
    (hok : simpleSort filt l = .ok out) : simpleSort filt out = .ok out := by
  rw [simpleSort] at hok
  cases hI : sortByKey filt l with
  | error e => rw [hI] at hok; exact absurd hok (fun hc => Except.noConfusion hc)
  | ok sI =>
  cases hQ : sortByKey filt (l.filter (fun k => hasSub "_q" k)) with
  | error e => rw [hI, hQ] at hok; exact absurd hok (fun hc => Except.noConfusion hc)
  | ok sQ =>
  rw [hI, hQ] at hok
  obtain rfl : sI = out := Except.ok.inj hok
  obtain ⟨sQ', hQ'⟩ := sortByKey_isSome_ok
    (fun s hs => sortByKey_ok_isSome hI s (List.mem_of_mem_filter hs))
  rw [simpleSort, sortByKey_ok_self hI, hQ']

theorem complexSort_idem {l out : List String}
    (hdual : ∀ s ∈ l, ¬(hasSub "_i" s = true ∧ hasSub "_q" s = true))
    (hok : complexSort false l = .ok out) : complexSort false out = .ok out := by
  rw [complexSort] at hok
  cases hI : sortByKey ignoreadc (l.filter (fun k => hasSub "_i" k)) with
  | error e => rw [hI] at hok; exact absurd hok (fun hc => Except.noConfusion hc)
  | ok sI =>
  cases hQ : sortByKey ignoreadc (l.filter (fun k => hasSub "_q" k)) with
  | error e => rw [hI, hQ] at hok; exact absurd hok (fun hc => Except.noConfusion hc)
  | ok sQ =>
  rw [hI, hQ] at hok
  have hok2 : interQ sI sQ = Except.ok out := hok
  obtain ⟨hlen, rfl⟩ := interQ_ok_elim hok2
  have hImem : ∀ x ∈ sI, hasSub "_i" x = true ∧ hasSub "_q" x = false := by
    intro x hx
    obtain ⟨hxl, hxi⟩ := List.mem_filter.mp ((sortByKey_perm hI).subset hx)
    refine ⟨hxi, ?_⟩
    cases hq : hasSub "_q" x with
    | false => rfl
    | true => exact absurd ⟨hxi, hq⟩ (hdual x hxl)
  have hQmem : ∀ x ∈ sQ, hasSub "_q" x = true ∧ hasSub "_i" x = false := by
    intro x hx
    obtain ⟨hxl, hxq⟩ := List.mem_filter.mp ((sortByKey_perm hQ).subset hx)
    refine ⟨hxq, ?_⟩
    cases hi : hasSub "_i" x with
    | false => rfl
    | true => exact absurd ⟨hi, hxq⟩ (hdual x hxl)
  have hfI : (weave sI sQ).filter (fun k => hasSub "_i" k) = sI :=
    weave_filter_left hlen (fun a ha => (hImem a ha).1) (fun b hb => (hQmem b hb).2)
  have hfQ : (weave sI sQ).filter (fun k => hasSub "_q" k) = sQ.take sI.length :=
    weave_filter_right hlen (fun a ha => (hImem a ha).2) (fun b hb => (hQmem b hb).1)
  obtain ⟨psQ, hkQ, hsQeq⟩ := sortByKey_eq_ok hQ
  have hQtake : sortByKey ignoreadc (sQ.take sI.length) = .ok (sQ.take sI.length) := by
    rw [hsQeq, ← List.map_take]
    exact sortByKey_idem
      (fun p hp =>
        keyedP_perm (sortPairs_perm psQ).symm (keyed_some_keyedP hkQ) p
          ((List.take_sublist _ _).subset hp))
      (List.Pairwise.sublist (List.take_sublist _ _) (sortPairs_pairwise psQ))
  rw [complexSort, hfI, hfQ, sortByKey_ok_self hI, hQtake]
  show interQ sI (sQ.take sI.length) = Except.ok (weave sI sQ)
  rw [interQ_ok_weave (by rw [List.length_take]; omega), weave_take]

/-! ### Claim theorems -/

/-- C2: for the topology map `{ADC0: {CDDC0: {FDDC0: [voltage0_i, voltage0_q]}}}`,
the derivation run at construction flattens the fine-stage lists, filters out
entries containing `_q` or lacking `voltage`, and yields receive coarse and
fine representative lists both equal to `[voltage0_i]` (the transmit lists stay
empty). -/
theorem c2_representative_derivation :
    deriveReps [("ADC0", [("CDDC0", [("FDDC0", ["voltage0_i", "voltage0_q"])])])] =
      .ok ⟨["voltage0_i"], ["voltage0_i"], [], []⟩ := by
  decide

/-- C3: `_sortconv` with `complex=True` maps the set
`{voltage0_i, voltage0_q, voltage1_i, voltage1_q}` — presented in any input
order — to `[voltage0_i, voltage0_q, voltage1_i, voltage1_q]`; the output is
independent of the input order. -/
theorem c3_complex_sort_order_independent (l : List String)
    (h : l.Perm ["voltage0_i", "voltage0_q", "voltage1_i", "voltage1_q"]) :
    _sortconv l false false true =
      .ok ["voltage0_i", "voltage0_q", "voltage1_i", "voltage1_q"] := by
  have hm : l ∈
      (["voltage0_i", "voltage0_q", "voltage1_i", "voltage1_q"] : List String).permutations' :=
    List.mem_permutations'.mpr h
  exact (by decide :
    ∀ x ∈ (["voltage0_i", "voltage0_q", "voltage1_i", "voltage1_q"] : List String).permutations',
      _sortconv x false false true =
        .ok ["voltage0_i", "voltage0_q", "voltage1_i", "voltage1_q"]) l hm

/-- Witness for C3 at one concrete permutation of the input. -/
theorem c3_witness :
    _sortconv ["voltage1_q", "voltage0_i", "voltage1_i", "voltage0_q"] false false true =
      .ok ["voltage0_i", "voltage0_q", "voltage1_i", "voltage1_q"] :=
  c3_complex_sort_order_independent _ (by decide)

/-- C5: for every input list and every `noq`, calling `_sortconv` with both
`dds=True` and `complex=True` fails on the assertion, before any sorting is
performed; no sorted output is ever produced for that argument combination. -/
theorem c5_dds_complex_assert (l : List String) (noq : Bool) :
    _sortconv l noq true true = .error .assertFail := rfl

/-- C8: with the raw data-channel list empty (equivalently an empty topology
map) construction succeeds — all three `_sortconv` calls return `[]` and the
derivation returns four empty representative lists — while a single-form
attribute accessor handed the empty ordered list fails with the
index/unavailable-operation condition instead of reading channel zero. -/
theorem c8_empty_channel_lists :
    _sortconv [] false false true = .ok [] ∧
    _sortconv [] false false false = .ok [] ∧
    _sortconv [] false true false = .ok [] ∧
    deriveReps [] = .ok ⟨[], [], [], []⟩ ∧
    (∀ read : String → String, _get_iio_attr_str_single read [] = .error .indexErr) ∧
    selectSingleName [] = .error .indexErr :=
  ⟨by decide, by decide, by decide, by decide, fun _ => rfl, rfl⟩

/-- C1: a receive descriptor whose label splits (after `:` → `->`
normalization) into the 3 segments `[F, C, A]` has its identifier appended to
the channel list at `topology_map[A][C][F]`; a descriptor with the 4-segment
split `[S, F, C, A]` has the leading segment discarded and produces exactly
the same map as the 3-segment descriptor with the same identifier. -/
theorem c1_label_placement (paths : PathMap) (ch ch4 : Chan) (lab lab4 F C A S : String)
    (hl : ch.label = some lab) (hnb : lab ≠ "buffer_only")
    (hsplit : labelSegments lab = [F, C, A])
    (hl4 : ch4.label = some lab4) (hnb4 : lab4 ≠ "buffer_only")
    (hsplit4 : labelSegments lab4 = [S, F, C, A])
    (hid : ch4.id = ch.id) :
    (∃ l, lookupLeaf (_map_to_dict paths ch) A C F = some l ∧ ch.id ∈ l) ∧
    _map_to_dict paths ch4 = _map_to_dict paths ch := by
  have h3 : _map_to_dict paths ch = updateA paths A C F ch.id := by
    simp only [_map_to_dict, hl, if_neg hnb, hsplit]
  have h4 : _map_to_dict paths ch4 = updateA paths A C F ch4.id := by
    simp only [_map_to_dict, hl4, if_neg hnb4, hsplit4]
  constructor
  · rw [h3]
    refine ⟨_, lookupLeaf_updateA paths A C F ch.id, ?_⟩
    exact List.mem_append_right _ (List.mem_singleton.mpr rfl)
  · rw [h4, h3, hid]

/-- Witness for C1: the 3-segment label `FDDC0->CDDC0->ADC0` and the
4-segment label `rx:FDDC0->CDDC0->ADC0` on the identifier `voltage0_i`. -/
theorem c1_witness :
    (∃ l, lookupLeaf (_map_to_dict []
        ⟨"voltage0_i", some "FDDC0->CDDC0->ADC0", true, false⟩) "ADC0" "CDDC0" "FDDC0" =
          some l ∧ "voltage0_i" ∈ l) ∧
    _map_to_dict [] ⟨"voltage0_i", some "rx:FDDC0->CDDC0->ADC0", true, false⟩ =
      _map_to_dict [] ⟨"voltage0_i", some "FDDC0->CDDC0->ADC0", true, false⟩ :=
  c1_label_placement [] ⟨"voltage0_i", some "FDDC0->CDDC0->ADC0", true, false⟩
    ⟨"voltage0_i", some "rx:FDDC0->CDDC0->ADC0", true, false⟩
    "FDDC0->CDDC0->ADC0" "rx:FDDC0->CDDC0->ADC0" "FDDC0" "CDDC0" "ADC0" "rx"
    rfl (by decide) (by decide) rfl (by decide) (by decide) rfl

/-- C4: the topology parse of construction is pure. In the heap model,
`paths = {}` allocates a reference distinct from every previously existing
map, the `_map_to_dict` loop never writes to any previously existing map, and
the final map is exactly the pure function `parsePaths` of the input channel
sequence. -/
theorem c4_parser_pure (st : Store) (chans : List Chan) :
    (buildPathMapRef st chans).2 = st.heap.length ∧
    readRef (buildPathMapRef st chans).1 (buildPathMapRef st chans).2 =
      some (parsePaths chans) ∧
    (∀ r', r' < st.heap.length →
      readRef (buildPathMapRef st chans).1 r' = readRef st r') := by
  have halloc : readRef (allocRef st []).1 st.heap.length = some [] := by
    simp [readRef, allocRef, List.getElem?_concat_length]
  obtain ⟨h1, h2, h3⟩ := buildLoop_spec chans (allocRef st []).1 st.heap.length [] halloc
  have hb : buildPathMapRef st chans =
      buildLoop ((allocRef st []).1, st.heap.length) chans := rfl
  refine ⟨by rw [hb]; exact h1, ?_, ?_⟩
  · rw [hb, h1]
    exact h2
  · intro r' hlt
    have hne : r' ≠ st.heap.length := Nat.ne_of_lt hlt
    rw [hb, h3 r' hne]
    simp [readRef, allocRef, List.getElem?_append, hlt]

/-- Witness for C4: one prior map on the heap, one labelled channel;
the parse lands at the fresh reference 1 and reference 0 is untouched. -/
theorem c4_witness :
    (buildPathMapRef ⟨[[("X", [])]]⟩
        [⟨"voltage0_i", some "FDDC0->CDDC0->ADC0", true, false⟩]).2 = 1 ∧
    readRef (buildPathMapRef ⟨[[("X", [])]]⟩
        [⟨"voltage0_i", some "FDDC0->CDDC0->ADC0", true, false⟩]).1 0 =
      readRef ⟨[[("X", [])]]⟩ 0 :=
  ⟨(c4_parser_pure ⟨[[("X", [])]]⟩
      [⟨"voltage0_i", some "FDDC0->CDDC0->ADC0", true, false⟩]).1,
   (c4_parser_pure ⟨[[("X", [])]]⟩
      [⟨"voltage0_i", some "FDDC0->CDDC0->ADC0", true, false⟩]).2.2 0 (by decide)⟩

/-- C6: a receive descriptor whose label is the `buffer_only` sentinel or
splits into a segment count other than 3 or 4 (and whose identifier is carried
by no other, parseable-labelled descriptor) is absent from every leaf of the
parsed topology map, yet — being a scan-enabled input channel — still appears
in the raw receive channel-name list. -/
theorem c6_ignored_labels (chans : List Chan) (ch : Chan) (lab : String)
    (hmem : ch ∈ chans) (hlab : ch.label = some lab)
    (hbad : lab = "buffer_only" ∨
      ((labelSegments lab).length ≠ 3 ∧ (labelSegments lab).length ≠ 4))
    (hothers : ∀ ch' ∈ chans, ch'.id = ch.id → labelIgnored ch'.label = true) :
    memLeaf (parsePaths chans) ch.id = false ∧
    (ch.scan_element = true → ch.output = false → ch.id ∈ rxChannelNamesRaw chans) := by
  constructor
  · rw [← Bool.not_eq_true, memLeaf_iff]
    intro hin
    rcases inMap_parse_fold chans [] ch.id hin with h0 | ⟨ch', hm', hid', hig'⟩
    · obtain ⟨a, ha, -⟩ := h0
      exact absurd ha (List.not_mem_nil a)
    · rw [hothers ch' hm' hid'.symm] at hig'
      exact Bool.noConfusion hig'
  · intro hscan hout
    refine List.mem_map.mpr ⟨ch, List.mem_filter.mpr ⟨hmem, ?_⟩, rfl⟩
    rw [hscan, hout]
    rfl

/-- Witness for C6: a `buffer_only` scan channel next to a normally
labelled one. -/
theorem c6_witness :
    memLeaf (parsePaths
      [⟨"voltage2", some "buffer_only", true, false⟩,
       ⟨"voltage0_i", some "FDDC0->CDDC0->ADC0", true, false⟩]) "voltage2" = false ∧
    (true = true → false = false → "voltage2" ∈ rxChannelNamesRaw
      [⟨"voltage2", some "buffer_only", true, false⟩,
       ⟨"voltage0_i", some "FDDC0->CDDC0->ADC0", true, false⟩]) :=
  c6_ignored_labels _ ⟨"voltage2", some "buffer_only", true, false⟩ "buffer_only"
    (by decide) rfl (Or.inl rfl) (by decide)

/-- C10: if the topology map contains a `(converter, coarse)` group whose
flattened, filtered channel list is empty (for example a group holding only
`_q`-named identifiers), the derivation at construction fails with the
`chans[0]` index error — the group is not skipped and no representative
lists are produced. -/
theorem c10_empty_group_fails (m : PathMap) (conv cdc : String) (cm : CMap) (fm : FMap)
    (h1 : (conv, cm) ∈ m) (h2 : (cdc, fm) ∈ cm)
    (hempty : filterReps (flattenGroup fm) = []) :
    deriveReps m = .error .indexErr := by
  cases hres : deriveReps m with
  | ok r =>
    have hres' : deriveAll ⟨[], [], [], []⟩ m = .ok r := hres
    exact absurd hempty (deriveAll_ok_no_empty hres' (conv, cm) h1 (cdc, fm) h2)
  | error e =>
    have hres' : deriveAll ⟨[], [], [], []⟩ m = .error e := hres
    rw [deriveAll_error_eq hres']

/-- Witness for C10: a group whose only channel is `voltage0_q`. -/
theorem c10_witness :
    deriveReps [("ADC0", [("CDDC0", [("FDDC0", ["voltage0_q"])])])] = .error .indexErr :=
  c10_empty_group_fails _ "ADC0" "CDDC0" [("CDDC0", [("FDDC0", ["voltage0_q"])])]
    [("FDDC0", ["voltage0_q"])] (by decide) (by decide) (by decide)

/-- C7 counterexample: `_sortconv` is not idempotent in complex mode.
The name `voltage0_i_q` contains both `_i` and `_q`, so it lands in both
partitions: the first application duplicates it, and re-applying `_sortconv`
to that output duplicates it again instead of returning it unchanged. -/
theorem c7_counterexample :
    _sortconv ["voltage0_i_q"] false false true = .ok ["voltage0_i_q", "voltage0_i_q"] ∧
    _sortconv ["voltage0_i_q", "voltage0_i_q"] false false true ≠
      .ok ["voltage0_i_q", "voltage0_i_q"] := by
  decide

/-- C7 (amended): `_sortconv` is idempotent on every input on which it
succeeds, in each of the three construction modes (complex, real, dds),
provided — in complex mode — that no input name contains both the `_i` and
the `_q` fragment. -/
theorem c7_idempotent_amended (l out : List String) (dds complex : Bool)
    (hdual : complex = true → ∀ s ∈ l, ¬(hasSub "_i" s = true ∧ hasSub "_q" s = true))
    (hok : _sortconv l false dds complex = .ok out) :
    _sortconv out false dds complex = .ok out := by
  cases dds with
  | false =>
    cases complex with
    | false =>
      rw [sortconv_real_eq] at hok ⊢
      exact simpleSort_idem hok
    | true =>
      rw [sortconv_complex_eq] at hok ⊢
      exact complexSort_idem (hdual rfl) hok
  | true =>
    cases complex with
    | false =>
      rw [sortconv_dds_eq] at hok ⊢
      exact simpleSort_idem hok
    | true => exact absurd hok (fun hc => Except.noConfusion hc)

/-- Witness for C7: re-sorting the already-sorted complex pair list. -/
theorem c7_witness :
    _sortconv ["voltage0_i", "voltage0_q"] false false true =
      .ok ["voltage0_i", "voltage0_q"] :=
  c7_idempotent_amended ["voltage0_q", "voltage0_i"] ["voltage0_i", "voltage0_q"]
    false true (by decide) (by decide)

/-- C9 counterexample: with more `_i` names than `_q` names the call does
fail, but not always with the out-of-range index access the claim states —
`ignoreadc("x_i")` is `int("")`, a `ValueError`, raised while sorting keys. -/
theorem c9_counterexample :
    _sortconv ["x_i"] false false true = .error .valueErr ∧
    SortErr.valueErr ≠ SortErr.indexErr ∧
    ((["x_i"] : List String).filter (fun k => hasSub "_q" k)).length <
      ((["x_i"] : List String).filter (fun k => hasSub "_i" k)).length := by
  decide

/-- C9 (amended): in complex mode `_sortconv` classifies names by substring
containment. Whenever it succeeds, names containing neither `_i` nor `_q`
are silently dropped, the `_i` partition is no larger than the `_q`
partition, and the output holds exactly one `_i`/`_q` pair per `_i` entry
(surplus `_q` names are dropped). If every marker-bearing name has a parseable
sort key and the `_i` partition is strictly larger than the `_q` partition,
the call fails with the out-of-range index access. -/
theorem c9_complex_partitions (l : List String) :
    (∀ out, _sortconv l false false true = .ok out →
      (∀ n ∈ l, hasSub "_i" n = false → hasSub "_q" n = false → n ∉ out) ∧
      (l.filter (fun k => hasSub "_i" k)).length ≤
        (l.filter (fun k => hasSub "_q" k)).length ∧
      out.length = 2 * (l.filter (fun k => hasSub "_i" k)).length) ∧
    ((∀ s ∈ l, (hasSub "_i" s || hasSub "_q" s) = true → (ignoreadc s).isSome) →
      (l.filter (fun k => hasSub "_q" k)).length <
        (l.filter (fun k => hasSub "_i" k)).length →
      _sortconv l false false true = .error .indexErr) := by
  constructor
  · intro out hok
    rw [sortconv_complex_eq, complexSort] at hok
    cases hI : sortByKey ignoreadc (l.filter (fun k => hasSub "_i" k)) with
    | error e => rw [hI] at hok; exact absurd hok (fun hc => Except.noConfusion hc)
    | ok sI =>
    cases hQ : sortByKey ignoreadc (l.filter (fun k => hasSub "_q" k)) with
    | error e => rw [hI, hQ] at hok; exact absurd hok (fun hc => Except.noConfusion hc)
    | ok sQ =>
    rw [hI, hQ] at hok
    have hok2 : interQ sI sQ = Except.ok out := hok
    obtain ⟨hlen, rfl⟩ := interQ_ok_elim hok2
    have hIlen : sI.length = (l.filter (fun k => hasSub "_i" k)).length :=
      (sortByKey_perm hI).length_eq
    have hQlen : sQ.length = (l.filter (fun k => hasSub "_q" k)).length :=
      (sortByKey_perm hQ).length_eq
    refine ⟨?_, by omega, by rw [weave_length hlen, hIlen]⟩
    intro n _ hni hnq hmem
    rcases weave_mem hmem with hin | hin
    · have := (List.mem_filter.mp ((sortByKey_perm hI).subset hin)).2
      rw [hni] at this
      exact Bool.noConfusion this
    · have := (List.mem_filter.mp ((sortByKey_perm hQ).subset hin)).2
      rw [hnq] at this
      exact Bool.noConfusion this
  · intro hkeys hlt
    rw [sortconv_complex_eq, complexSort]
    obtain ⟨sI, hI⟩ := sortByKey_isSome_ok (l := l.filter (fun k => hasSub "_i" k))
      (fun s hs => hkeys s (List.mem_of_mem_filter hs)
        (by rw [(List.mem_filter.mp hs).2, Bool.true_or]))
    obtain ⟨sQ, hQ⟩ := sortByKey_isSome_ok (l := l.filter (fun k => hasSub "_q" k))
      (fun s hs => hkeys s (List.mem_of_mem_filter hs)
        (by rw [(List.mem_filter.mp hs).2, Bool.or_true]))
    rw [hI, hQ]
    have hIlen : sI.length = (l.filter (fun k => hasSub "_i" k)).length :=
      (sortByKey_perm hI).length_eq
    have hQlen : sQ.length = (l.filter (fun k => hasSub "_q" k)).length :=
      (sortByKey_perm hQ).length_eq
    show interQ sI sQ = Except.error SortErr.indexErr
    exact interQ_short (by omega)

/-- Witness for C9: `voltage9` (no marker) is dropped from a successful
complex sort, and a lone parseable `_i` name hits the index error. -/
theorem c9_witness :
    ("voltage9" ∉ (["voltage0_i", "voltage0_q"] : List String)) ∧
    _sortconv ["voltage1_i"] false false true = .error .indexErr :=
  ⟨((c9_complex_partitions ["voltage0_i", "voltage0_q", "voltage9"]).1
      ["voltage0_i", "voltage0_q"] (by decide)).1 "voltage9" (by decide)
      (by decide) (by decide),
   (c9_complex_partitions ["voltage1_i"]).2 (by decide) (by decide)⟩

end AD9084
